import Mathlib

/-!
Verification of the schema block extractor and merger
(`merge-schemas.py`: `extract_models`, `extract_enums`, `merge_schemas`).

Python strings are embedded as `List Char`; each Python function is
translated into an executable Lean definition operating on that
representation, and the claims of the specification are settled as
theorems about those definitions.
-/

set_option maxHeartbeats 1000000
set_option maxRecDepth 100000

/-- A Python string: a sequence of characters. -/
abbrev Str := List Char

/-- A Python `dict[str, str]`: insertion-ordered association list with
unique keys (uniqueness is maintained by `dictSet`). -/
abbrev Dict := List (Str × Str)

/-- Whitespace characters recognised by Python's `str.strip()` / `str.split()`
(ASCII subset; exotic Unicode space classes are elided). -/
def isPySpace (c : Char) : Bool :=
  c = ' ' || c = '\t' || c = '\n' || c = '\r' || c = '\x0b' || c = '\x0c'

/-- Remove trailing whitespace (the right half of Python `str.strip()`). -/
def dropEndWs (s : Str) : Str :=
  (s.reverse.dropWhile isPySpace).reverse

/-- Python `str.strip()`: remove leading and trailing whitespace. -/
def pyStrip (s : Str) : Str :=
  dropEndWs (s.dropWhile isPySpace)

/-- Python `str.startswith(p)`: the second argument is a leading segment of
the first. -/
def listStartsWith : Str → Str → Bool
  | _, [] => true
  | [], _ :: _ => false
  | c :: cs, d :: ds => c = d && listStartsWith cs ds

/-- Helper for `pySplit`: accumulates the current word (reversed). -/
def wordsAux : Str → Str → List Str
  | [], acc => if acc = [] then [] else [acc.reverse]
  | c :: cs, acc =>
    if isPySpace c then
      if acc = [] then wordsAux cs [] else acc.reverse :: wordsAux cs []
    else wordsAux cs (c :: acc)

/-- Python `str.split()` with no arguments: split on runs of whitespace,
dropping empty pieces. -/
def pySplit (s : Str) : List Str := wordsAux s []

/-- Helper for `splitNL`: accumulates the current line (reversed). -/
def splitNLAux : Str → Str → List Str
  | [], acc => [acc.reverse]
  | c :: cs, acc =>
    if c = '\n' then acc.reverse :: splitNLAux cs [] else splitNLAux cs (c :: acc)

/-- Python `str.split('\n')`. -/
def splitNL (s : Str) : List Str := splitNLAux s []

/-- Helper for `joinNL`: joins the tail elements, each preceded by `'\n'`. -/
def joinTail : List Str → Str
  | [] => []
  | x :: rest => '\n' :: (x ++ joinTail rest)

/-- Python `'\n'.join(xs)`. -/
def joinNL : List Str → Str
  | [] => []
  | x :: rest => x ++ joinTail rest

/-- Python `s.count(c)`: number of occurrences of character `c` in `s`. -/
def countCh (c : Char) : Str → Nat
  | [] => 0
  | d :: ds => (if d = c then 1 else 0) + countCh c ds

/-- The value `line.count('\x7b') - line.count('\x7d')`: the brace balance of a piece
of text, as an integer. -/
def balInt (s : Str) : Int :=
  (countCh '\x7b' s : Int) - (countCh '\x7d' s : Int)

/-- Python dict assignment `d[k] = v`: replace the value in place if the
key is present, otherwise append a new entry at the end. -/
def dictSet : Dict → Str → Str → Dict
  | [], k, v => [(k, v)]
  | (k', v') :: rest, k, v =>
    if k' = k then (k', v) :: rest else (k', v') :: dictSet rest k v

/-- Python dict lookup `d[k]` / `d.get(k)`. -/
def dictGet : Dict → Str → Option Str
  | [], _ => none
  | (k', v') :: rest, k => if k' = k then some v' else dictGet rest k

/-- Python `list(d.keys())` (insertion order). -/
def dictKeys (d : Dict) : List Str := d.map Prod.fst

/-- Python `k in d` for a dict. -/
def dictHasKey (d : Dict) (k : Str) : Bool := (dictGet d k).isSome

/-- The keyword of a model opening line, `'model '`. -/
def modelKW : Str := ['m', 'o', 'd', 'e', 'l', ' ']

/-- The keyword of an enum opening line, `'enum '`. -/
def enumKW : Str := ['e', 'n', 'u', 'm', ' ']

/-- The scanner's loop state in `extract_models` / `extract_enums`:
the dict built so far, the name of the open block (Python `None` or a
string), the accumulated lines, the `in_model` flag and the running brace
count. -/
structure ScanState where
  models : Dict
  current_model : Option Str
  current_content : List Str
  in_model : Bool
  brace_count : Int
deriving DecidableEq

/-- The state at the top of `extract_models`: empty dict, no open block. -/
def initState : ScanState := ⟨[], none, [], false, 0⟩

/-- One iteration of the `for line in lines` loop of `extract_models`
(source lines 20-38), keyword generalised: flush-and-open on an opening
line, otherwise accumulate while inside a block and close when the brace
count returns to zero. -/
def genericStep (kw : Str) (s : ScanState) (line : Str) : ScanState :=
  if listStartsWith (pyStrip line) kw then
    let models' :=
      match s.current_model with
      | some m =>
        if m ≠ [] ∧ s.current_content ≠ [] then
          dictSet s.models m (joinNL s.current_content)
        else s.models
      | none => s.models
    { models := models'
      current_model := some ((pySplit (pyStrip line)).getD 1 [])
      current_content := [line]
      in_model := true
      brace_count := balInt line }
  else if s.in_model then
    let content' := s.current_content ++ [line]
    let bc' := s.brace_count + balInt line
    if bc' = 0 then
      { models := dictSet s.models (s.current_model.getD []) (joinNL content')
        current_model := none
        current_content := []
        in_model := false
        brace_count := bc' }
    else
      { s with current_content := content', brace_count := bc' }
  else s

/-- One iteration of the loop of `extract_models` (source lines 20-38),
with the keyword `'model '` as in the source. -/
def modelStep (s : ScanState) (line : Str) : ScanState :=
  if listStartsWith (pyStrip line) modelKW then
    let models' :=
      match s.current_model with
      | some m =>
        if m ≠ [] ∧ s.current_content ≠ [] then
          dictSet s.models m (joinNL s.current_content)
        else s.models
      | none => s.models
    { models := models'
      current_model := some ((pySplit (pyStrip line)).getD 1 [])
      current_content := [line]
      in_model := true
      brace_count := balInt line }
  else if s.in_model then
    let content' := s.current_content ++ [line]
    let bc' := s.brace_count + balInt line
    if bc' = 0 then
      { models := dictSet s.models (s.current_model.getD []) (joinNL content')
        current_model := none
        current_content := []
        in_model := false
        brace_count := bc' }
    else
      { s with current_content := content', brace_count := bc' }
  else s

/-- One iteration of the loop of `extract_enums` (source lines 56-73),
with the keyword `'enum '` as in the source. -/
def enumStep (s : ScanState) (line : Str) : ScanState :=
  if listStartsWith (pyStrip line) enumKW then
    let models' :=
      match s.current_model with
      | some m =>
        if m ≠ [] ∧ s.current_content ≠ [] then
          dictSet s.models m (joinNL s.current_content)
        else s.models
      | none => s.models
    { models := models'
      current_model := some ((pySplit (pyStrip line)).getD 1 [])
      current_content := [line]
      in_model := true
      brace_count := balInt line }
  else if s.in_model then
    let content' := s.current_content ++ [line]
    let bc' := s.brace_count + balInt line
    if bc' = 0 then
      { models := dictSet s.models (s.current_model.getD []) (joinNL content')
        current_model := none
        current_content := []
        in_model := false
        brace_count := bc' }
    else
      { s with current_content := content', brace_count := bc' }
  else s

/-- The final flush of `extract_models` (source lines 41-42): if the
document ended with a block still open, emit the accumulated lines. -/
def finalFlush (s : ScanState) : Dict :=
  match s.current_model with
  | some m =>
    if m ≠ [] ∧ s.current_content ≠ [] then
      dictSet s.models m (joinNL s.current_content)
    else s.models
  | none => s.models

/-- The function `extract_models(schema_content)` (source lines 10-44). -/
def extract_models (content : Str) : Dict :=
  finalFlush ((splitNL content).foldl modelStep initState)

/-- The function `extract_enums(schema_content)` (source lines 46-78). -/
def extract_enums (content : Str) : Dict :=
  finalFlush ((splitNL content).foldl enumStep initState)

/-- The function `extract_models` with its keyword abstracted: the common algorithm of
the two scanners, instantiated at `'model '` or `'enum '`. -/
def extractBlocks (kw : Str) (content : Str) : Dict :=
  finalFlush ((splitNL content).foldl (genericStep kw) initState)

/-- Lexicographic (case-sensitive, by code point) order on strings:
Python `a <= b`. -/
def strLe : Str → Str → Bool
  | [], _ => true
  | _ :: _, [] => false
  | c :: cs, d :: ds => if c < d then true else if d < c then false else strLe cs ds

/-- Strict lexicographic (case-sensitive, by code point) order on strings:
Python `a < b`. -/
def strLt : Str → Str → Bool
  | [], [] => false
  | [], _ :: _ => true
  | _ :: _, [] => false
  | c :: cs, d :: ds => if c < d then true else if d < c then false else strLt cs ds

/-- Insert a string into a `strLe`-sorted list (kernel of `sorted`). -/
def insOne (x : Str) : List Str → List Str
  | [] => [x]
  | y :: ys => if strLe x y then x :: y :: ys else y :: insOne x ys

/-- Python `sorted(keys)`: insertion sort by lexicographic order. -/
def insSort : List Str → List Str
  | [] => []
  | x :: xs => insOne x (insSort xs)

/-- The outcome of inserting one block into a registry (printed as
`+ Added` / `- Skipped duplicate` by the source). -/
inductive Outcome where
  | added
  | skippedDuplicate
deriving DecidableEq

/-- The kind of a block: which keyword introduced it. -/
inductive BKind where
  | model
  | enum
deriving DecidableEq

/-- One merge-report event: kind, block name, and outcome. -/
abbrev Event := BKind × Str × Outcome

/-- The merge report: the events in the order the source prints them. -/
abbrev Report := List Event

/-- The duplicate-skipping insertion loop of `merge_schemas`
(source lines 128-133 for models, 136-141 for enums): fold the blocks of
one document into the accumulated dict, recording an event for each. -/
def addNewBlocks (kind : BKind) (acc : Dict × Report) (items : Dict) : Dict × Report :=
  items.foldl
    (fun acc kv =>
      if dictHasKey acc.1 kv.1 then
        (acc.1, acc.2 ++ [(kind, kv.1, Outcome.skippedDuplicate)])
      else
        (acc.1 ++ [kv], acc.2 ++ [(kind, kv.1, Outcome.added)]))
    acc

/-- Processing of one secondary document in `merge_schemas`
(source lines 113-141): extract its models and enums and fold them into
the accumulated registries. -/
def mergeStep (acc : Dict × Dict × Report) (content : Str) : Dict × Dict × Report :=
  let p1 := addNewBlocks BKind.model (acc.1, acc.2.2) (extract_models content)
  let p2 := addNewBlocks BKind.enum (acc.2.1, p1.2) (extract_enums content)
  (p1.1, p2.1, p2.2)

/-- The registries and report after the whole merge loop of
`merge_schemas` (source lines 97-141): seeded from the primary document,
then folded over the secondary documents in order. -/
def mergeState (primary : Str) (secondaries : List Str) : Dict × Dict × Report :=
  secondaries.foldl mergeStep (extract_models primary, extract_enums primary, [])

/-- The header-extraction loop of `merge_schemas` (source lines 89-95):
all lines of the primary document before the first line opening a model
or an enum. -/
def headerLines (content : Str) : List Str :=
  (splitNL content).takeWhile
    (fun l => !(listStartsWith (pyStrip l) modelKW || listStartsWith (pyStrip l) enumKW))

/-- The banner line `'// ' + 76 * '='` used by the renderer. -/
def bannerLine : Str := '/' :: '/' :: ' ' :: List.replicate 76 '='

/-- One rendered section of the consolidated output (source lines
145-151 and 153-159): the banner, the title, and the blocks of the dict
in sorted name order, each followed by an empty entry. -/
def renderSection (title : Str) (d : Dict) : List Str :=
  ('\n' :: bannerLine) :: title :: (bannerLine ++ ['\n']) ::
    (insSort (dictKeys d)).flatMap (fun n => [(dictGet d n).getD [], []])

/-- The title entry `'// ENUMS'`. -/
def enumsTitle : Str := ['/', '/', ' ', 'E', 'N', 'U', 'M', 'S']

/-- The title entry `'// MODELS'`. -/
def modelsTitle : Str := ['/', '/', ' ', 'M', 'O', 'D', 'E', 'L', 'S']

/-- The function `merge_schemas` (source lines 80-169) as a pure function of the
primary document text and the ordered secondary document texts (file
reading and printing are the caller's concern): returns the consolidated
output text and the merge report. -/
def merge_schemas (primary : Str) (secondaries : List Str) : Str × Report :=
  let st := mergeState primary secondaries
  (joinNL (joinNL (headerLines primary) ::
      (renderSection enumsTitle st.2.1 ++ renderSection modelsTitle st.1)),
    st.2.2)

/-! ### Basic lemmas about the string operations -/

theorem countCh_append (c : Char) (a b : Str) :
    countCh c (a ++ b) = countCh c a + countCh c b := by
  induction a with
  | nil => simp [countCh]
  | cons d ds ih => simp [countCh, ih]; omega

theorem balInt_append (a b : Str) : balInt (a ++ b) = balInt a + balInt b := by
  simp [balInt, countCh_append]; omega

theorem balInt_joinTail (ls : List Str) :
    balInt (joinTail ls) = (ls.map balInt).sum := by
  induction ls with
  | nil => simp [joinTail, balInt, countCh]
  | cons x rest ih =>
    have h1 : joinTail (x :: rest) = ['\n'] ++ (x ++ joinTail rest) := rfl
    rw [h1, balInt_append, balInt_append, ih]
    simp [balInt, countCh]

theorem balInt_joinNL (ls : List Str) :
    balInt (joinNL ls) = (ls.map balInt).sum := by
  cases ls with
  | nil => simp [joinNL, balInt, countCh]
  | cons x rest =>
    have h1 : joinNL (x :: rest) = x ++ joinTail rest := rfl
    rw [h1, balInt_append, balInt_joinTail]
    simp

/-! ### Basic lemmas about the dict operations -/

theorem dictGet_dictSet_self (d : Dict) (k v : Str) :
    dictGet (dictSet d k v) k = some v := by
  induction d with
  | nil => simp [dictSet, dictGet]
  | cons p rest ih =>
    by_cases h : p.1 = k
    · simp [dictSet, dictGet, h]
    · simp [dictSet, dictGet, h, ih]

theorem dictGet_append_left {d : Dict} {k v : Str} (e : Dict)
    (h : dictGet d k = some v) : dictGet (d ++ e) k = some v := by
  induction d with
  | nil => simp [dictGet] at h
  | cons p rest ih =>
    by_cases hp : p.1 = k
    · simp [dictGet, hp] at h ⊢; exact h
    · simp [dictGet, hp] at h ⊢; exact ih h

theorem dictGet_mem {d : Dict} {k v : Str} (h : dictGet d k = some v) :
    (k, v) ∈ d := by
  induction d with
  | nil => simp [dictGet] at h
  | cons p rest ih =>
    cases p with
    | mk a b =>
      by_cases hp : a = k
      · subst hp
        simp [dictGet] at h
        subst h
        exact List.mem_cons_self _ _
      · simp [dictGet, hp] at h
        exact List.mem_cons_of_mem _ (ih h)

theorem dictGet_isSome_iff (d : Dict) (k : Str) :
    (dictGet d k).isSome = true ↔ k ∈ dictKeys d := by
  induction d with
  | nil => simp [dictGet, dictKeys]
  | cons p rest ih =>
    by_cases hp : p.1 = k
    · simp [dictGet, dictKeys, hp]
    · simp [dictGet, dictKeys, hp, ih, Ne.symm hp]

theorem dictKeys_dictSet (d : Dict) (k v : Str) :
    dictKeys (dictSet d k v) =
      if k ∈ dictKeys d then dictKeys d else dictKeys d ++ [k] := by
  induction d with
  | nil => simp [dictSet, dictKeys]
  | cons p rest ih =>
    cases p with
    | mk a b =>
      by_cases hp : a = k
      · subst hp
        simp [dictSet, dictKeys]
      · have h1 : dictSet ((a, b) :: rest) k v = (a, b) :: dictSet rest k v := by
          simp [dictSet, hp]
        rw [h1]
        simp only [dictKeys, List.map_cons] at ih ⊢
        rw [ih]
        by_cases hk : k ∈ List.map Prod.fst rest
        · simp [hk, Ne.symm hp]
        · simp [hk, Ne.symm hp]

theorem dictKeys_nodup_dictSet {d : Dict} (k v : Str)
    (h : (dictKeys d).Nodup) : (dictKeys (dictSet d k v)).Nodup := by
  rw [dictKeys_dictSet]
  by_cases hk : k ∈ dictKeys d
  · simpa [hk]
  · simp only [hk, if_false]
    rw [List.nodup_append]
    exact ⟨h, List.nodup_singleton k, by simpa using hk⟩

/-! ### Lemmas about the lexicographic order and the sort -/

theorem strLe_total (a b : Str) : strLe a b = true ∨ strLe b a = true := by
  induction a generalizing b with
  | nil => left; simp [strLe]
  | cons c cs ih =>
    cases b with
    | nil => right; simp [strLe]
    | cons d ds =>
      rcases lt_trichotomy c d with h | h | h
      · left; simp [strLe, h]
      · subst h
        rcases ih ds with h2 | h2
        · left; simp [strLe, h2]
        · right; simp [strLe, h2]
      · right; simp [strLe, h]

theorem strLt_of_le_of_ne {a b : Str} (hle : strLe a b = true) (hne : a ≠ b) :
    strLt a b = true := by
  induction a generalizing b with
  | nil =>
    cases b with
    | nil => exact absurd rfl hne
    | cons d ds => simp [strLt]
  | cons c cs ih =>
    cases b with
    | nil => simp [strLe] at hle
    | cons d ds =>
      rcases lt_trichotomy c d with h | h | h
      · simp [strLt, h]
      · subst h
        have hle' : strLe cs ds = true := by
          simpa [strLe] using hle
        have hne' : cs ≠ ds := fun he => hne (by rw [he])
        simp [strLt, ih hle' hne', lt_irrefl]
      · simp [strLe, h, not_lt_of_lt h] at hle

theorem mem_insOne {x y : Str} {l : List Str} (h : y ∈ insOne x l) :
    y = x ∨ y ∈ l := by
  induction l with
  | nil => simpa [insOne] using h
  | cons z zs ih =>
    by_cases hz : strLe x z = true
    · simp [insOne, hz] at h
      rcases h with h | h | h
      · left; exact h
      · right; simp [h]
      · right; simp [h]
    · simp [insOne, hz] at h
      rcases h with h | h
      · right; simp [h]
      · rcases ih h with h2 | h2
        · left; exact h2
        · right; simp [h2]

theorem insOne_perm (x : Str) (l : List Str) : (insOne x l).Perm (x :: l) := by
  induction l with
  | nil => simp [insOne]
  | cons z zs ih =>
    by_cases hz : strLe x z = true
    · simp [insOne, hz]
    · simp only [insOne, hz, if_false]
      exact (ih.cons z).trans (List.Perm.swap x z zs)

theorem insSort_perm (l : List Str) : (insSort l).Perm l := by
  induction l with
  | nil => simp [insSort]
  | cons x xs ih =>
    exact (insOne_perm x (insSort xs)).trans (ih.cons x)

theorem strLe_trans {a b c : Str} (h1 : strLe a b = true) (h2 : strLe b c = true) :
    strLe a c = true := by
  induction a generalizing b c with
  | nil => simp [strLe]
  | cons x xs ih =>
    cases b with
    | nil => simp [strLe] at h1
    | cons y ys =>
      cases c with
      | nil => simp [strLe] at h2
      | cons z zs =>
        rcases lt_trichotomy x y with hxy | hxy | hxy
        · rcases lt_trichotomy y z with hyz | hyz | hyz
          · simp [strLe, lt_trans hxy hyz]
          · subst hyz; simp [strLe, hxy]
          · simp [strLe, hyz, lt_asymm hyz] at h2
        · subst hxy
          have h1' : strLe xs ys = true := by simpa [strLe, lt_irrefl] using h1
          rcases lt_trichotomy x z with hxz | hxz | hxz
          · simp [strLe, hxz]
          · subst hxz
            have h2' : strLe ys zs = true := by simpa [strLe, lt_irrefl] using h2
            simp [strLe, lt_irrefl, ih h1' h2']
          · simp [strLe, hxz, lt_asymm hxz] at h2
        · simp [strLe, hxy, lt_asymm hxy] at h1

theorem insOne_sorted {x : Str} {l : List Str}
    (h : l.Pairwise (fun a b => strLe a b = true)) :
    (insOne x l).Pairwise (fun a b => strLe a b = true) := by
  induction l with
  | nil => simp [insOne]
  | cons z zs ih =>
    rcases List.pairwise_cons.mp h with ⟨hz, hzs⟩
    by_cases hle : strLe x z = true
    · simp only [insOne, hle, if_true]
      refine List.pairwise_cons.mpr ⟨?_, h⟩
      intro y hy
      rcases List.mem_cons.mp hy with rfl | hy
      · exact hle
      · exact strLe_trans hle (hz y hy)
    · have hxz : strLe z x = true := (strLe_total x z).resolve_left hle
      simp only [insOne, hle, if_false]
      refine List.pairwise_cons.mpr ⟨?_, ih hzs⟩
      intro y hy
      rcases mem_insOne hy with rfl | hy
      · exact hxz
      · exact hz y hy

theorem insSort_sorted (l : List Str) :
    (insSort l).Pairwise (fun a b => strLe a b = true) := by
  induction l with
  | nil => simp [insSort]
  | cons x xs ih => exact insOne_sorted ih

theorem insSort_pairwise_lt {l : List Str} (h : l.Nodup) :
    (insSort l).Pairwise (fun a b => strLt a b = true) := by
  have hs := insSort_sorted l
  have hnd : (insSort l).Nodup := ((insSort_perm l).nodup_iff).mpr h
  exact (hs.and hnd).imp fun hab => strLt_of_le_of_ne hab.1 hab.2

/-! ### Lemmas about stripping and word-splitting -/

theorem listStartsWith_iff (s p : Str) :
    listStartsWith s p = true ↔ ∃ r, s = p ++ r := by
  induction p generalizing s with
  | nil => simp [listStartsWith]
  | cons d ds ih =>
    cases s with
    | nil =>
      simp [listStartsWith]
    | cons c cs =>
      simp only [listStartsWith, Bool.and_eq_true, decide_eq_true_eq, ih, List.cons_append,
        List.cons.injEq]
      constructor
      · rintro ⟨rfl, r, rfl⟩
        exact ⟨r, rfl, rfl⟩
      · rintro ⟨r, rfl, rfl⟩
        exact ⟨rfl, r, rfl⟩

theorem dropWhile_head_false {p : Char → Bool} {l t : Str} {c : Char}
    (h : l.dropWhile p = c :: t) : p c = false := by
  induction l with
  | nil => simp [List.dropWhile] at h
  | cons a as ih =>
    by_cases ha : p a = true
    · rw [List.dropWhile_cons_of_pos ha] at h
      exact ih h
    · rw [List.dropWhile_cons_of_neg ha] at h
      cases h
      simpa using ha

theorem dropEndWs_last_not_ws {s r : Str} {c : Char}
    (h : dropEndWs s = r ++ [c]) : isPySpace c = false := by
  have h2 : (s.reverse.dropWhile isPySpace) = c :: r.reverse := by
    have := congrArg List.reverse h
    simpa [dropEndWs] using this
  exact dropWhile_head_false h2

theorem pyStrip_last_not_ws {s r : Str} {c : Char}
    (h : pyStrip s = r ++ [c]) : isPySpace c = false :=
  dropEndWs_last_not_ws h

theorem wordsAux_ne_nil_of_acc {acc : Str} (s : Str) (h : acc ≠ []) :
    wordsAux s acc ≠ [] := by
  induction s generalizing acc with
  | nil => simp [wordsAux, h]
  | cons c cs ih =>
    by_cases hc : isPySpace c = true
    · simp [wordsAux, hc, h]
    · simp only [wordsAux, hc]
      simp only [Bool.false_eq_true, if_false]
      exact ih (by simp)

theorem wordsAux_ne_nil {s : Str} {c : Char} (hm : c ∈ s)
    (hc : isPySpace c = false) (acc : Str) : wordsAux s acc ≠ [] := by
  induction s generalizing acc with
  | nil => simp at hm
  | cons a as ih =>
    by_cases ha : isPySpace a = true
    · have hca : c ≠ a := fun he => by rw [he] at hc; rw [hc] at ha; cases ha
      have hm' : c ∈ as := by
        rcases List.mem_cons.mp hm with he | hm'
        · exact absurd he hca
        · exact hm'
      by_cases hacc : acc = []
      · simp only [wordsAux, ha, if_true, hacc]
        simpa using ih hm' []
      · simp [wordsAux, ha, hacc]
    · simp only [wordsAux, ha]
      simp only [Bool.false_eq_true, if_false]
      exact wordsAux_ne_nil_of_acc as (by simp)

theorem wordsAux_modelKW (rest : Str) :
    wordsAux (modelKW ++ rest) [] = ['m', 'o', 'd', 'e', 'l'] :: wordsAux rest [] := rfl

theorem word_ne_nil {s acc w : Str} (hw : w ∈ wordsAux s acc) : w ≠ [] := by
  induction s generalizing acc with
  | nil =>
    by_cases hacc : acc = []
    · simp [wordsAux, hacc] at hw
    · simp [wordsAux, hacc] at hw
      simp [hw, hacc]
  | cons c cs ih =>
    by_cases hc : isPySpace c = true
    · by_cases hacc : acc = []
      · simp only [wordsAux, hc, if_true, hacc] at hw
        exact ih hw
      · simp only [wordsAux, hc, if_true, if_neg hacc] at hw
        rcases List.mem_cons.mp hw with rfl | hw
        · simp [hacc]
        · exact ih hw
    · simp only [wordsAux, hc] at hw
      simp only [Bool.false_eq_true, if_false] at hw
      exact ih hw

theorem wordsAux_shift {w : Str} (s acc : Str) (hw : ∀ c ∈ w, isPySpace c = false) :
    wordsAux (w ++ s) acc = wordsAux s (w.reverse ++ acc) := by
  induction w generalizing acc with
  | nil => simp
  | cons c cs ih =>
    have hc : isPySpace c = false := hw c (by simp)
    have hcs : ∀ c ∈ cs, isPySpace c = false := fun d hd => hw d (by simp [hd])
    have h0 : (c :: cs) ++ s = c :: (cs ++ s) := rfl
    have h1 : wordsAux (c :: (cs ++ s)) acc = wordsAux (cs ++ s) (c :: acc) := by
      simp [wordsAux, hc]
    rw [h0, h1, ih _ hcs]
    simp

theorem pySplit_keyword {w : Str} (rest : Str) (hw : ∀ c ∈ w, isPySpace c = false)
    (hne : w ≠ []) : pySplit ((w ++ [' ']) ++ rest) = w :: wordsAux rest [] := by
  have h1 : (w ++ [' ']) ++ rest = w ++ (' ' :: rest) := by simp
  rw [pySplit, h1, wordsAux_shift _ _ hw]
  have hsp : isPySpace ' ' = true := by decide
  have hrev : w.reverse ++ [] ≠ [] := by simp [hne]
  simp only [wordsAux, hsp, if_true, if_neg hrev]
  simp

theorem opening_two_tokens_gen {w line : Str} (hw : ∀ c ∈ w, isPySpace c = false)
    (hne : w ≠ []) (h : listStartsWith (pyStrip line) (w ++ [' ']) = true) :
    2 ≤ (pySplit (pyStrip line)).length := by
  rcases (listStartsWith_iff _ _).mp h with ⟨rest, hrest⟩
  have hex : ∃ c ∈ rest, isPySpace c = false := by
    by_contra hall
    rcases List.eq_nil_or_concat rest with rfl | ⟨r', c, rfl⟩
    · have h5 : pyStrip line = w ++ [' '] := by rw [hrest]; simp
      have := pyStrip_last_not_ws h5
      simp [isPySpace] at this
    · have h5 : pyStrip line = ((w ++ [' ']) ++ r') ++ [c] := by rw [hrest]; simp
      have hc := pyStrip_last_not_ws h5
      exact hall ⟨c, by simp, hc⟩
  rcases hex with ⟨c, hcm, hcws⟩
  have key : pySplit (pyStrip line) = w :: wordsAux rest [] := by
    rw [hrest]; exact pySplit_keyword rest hw hne
  rw [key]
  have h2 : wordsAux rest [] ≠ [] := wordsAux_ne_nil hcm hcws []
  have h3 : 0 < (wordsAux rest []).length := List.length_pos.mpr h2
  simp only [List.length_cons]
  omega

theorem name_token_ne_nil {line w : Str} (hw : ∀ c ∈ w, isPySpace c = false)
    (hne : w ≠ []) (h : listStartsWith (pyStrip line) (w ++ [' ']) = true) :
    (pySplit (pyStrip line)).getD 1 [] ≠ [] := by
  have h2 := opening_two_tokens_gen hw hne h
  have h1 : 1 < (pySplit (pyStrip line)).length := by omega
  rw [List.getD_eq_getElem _ _ h1]
  exact word_ne_nil (List.getElem_mem h1)

/-! ### Shape lemmas for the scanner step and the scanner invariants -/

theorem modelStep_eq_generic : modelStep = genericStep modelKW := rfl

theorem enumStep_eq_generic : enumStep = genericStep enumKW := rfl

theorem extract_models_eq_generic : extract_models = extractBlocks modelKW := rfl

theorem extract_enums_eq_generic : extract_enums = extractBlocks enumKW := rfl

theorem genericStep_opening {kw : Str} (s : ScanState) (line : Str)
    (hop : listStartsWith (pyStrip line) kw = true) :
    genericStep kw s line =
      ⟨finalFlush s, some ((pySplit (pyStrip line)).getD 1 []), [line], true,
        balInt line⟩ := by
  unfold genericStep
  rw [if_pos hop]
  rfl

theorem genericStep_out {kw : Str} (s : ScanState) (line : Str)
    (hop : listStartsWith (pyStrip line) kw = false)
    (hin : s.in_model = false) :
    genericStep kw s line = s := by
  unfold genericStep
  rw [if_neg (by simp [hop]), if_neg (by simp [hin])]

theorem genericStep_close {kw : Str} (s : ScanState) (line : Str)
    (hop : listStartsWith (pyStrip line) kw = false)
    (hin : s.in_model = true)
    (hz : s.brace_count + balInt line = 0) :
    genericStep kw s line =
      ⟨dictSet s.models (s.current_model.getD []) (joinNL (s.current_content ++ [line])),
        none, [], false, 0⟩ := by
  unfold genericStep
  rw [if_neg (by simp [hop]), if_pos hin]
  simp [hz]

theorem genericStep_cont {kw : Str} (s : ScanState) (line : Str)
    (hop : listStartsWith (pyStrip line) kw = false)
    (hin : s.in_model = true)
    (hnz : s.brace_count + balInt line ≠ 0) :
    genericStep kw s line =
      { s with current_content := s.current_content ++ [line],
               brace_count := s.brace_count + balInt line } := by
  unfold genericStep
  rw [if_neg (by simp [hop]), if_pos hin, if_neg hnz]

theorem foldl_preserve {α β : Type} {P : α → Prop} {f : α → β → α}
    (h : ∀ s b, P s → P (f s b)) : ∀ (l : List β) (s : α), P s → P (l.foldl f s) := by
  intro l
  induction l with
  | nil => intro s hs; exact hs
  | cons x xs ih =>
    intro s hs
    exact ih _ (h s x hs)

/-- The running brace count always equals the brace balance of the
accumulated content. -/
def BraceInv (s : ScanState) : Prop :=
  s.brace_count = (s.current_content.map balInt).sum

theorem braceInv_step {kw : Str} (s : ScanState) (line : Str) (h : BraceInv s) :
    BraceInv (genericStep kw s line) := by
  by_cases hop : listStartsWith (pyStrip line) kw = true
  · rw [genericStep_opening s line hop]
    simp [BraceInv]
  · have hop' : listStartsWith (pyStrip line) kw = false := by
      simpa using hop
    by_cases hin : s.in_model = true
    · by_cases hz : s.brace_count + balInt line = 0
      · rw [genericStep_close s line hop' hin hz]
        simp [BraceInv]
      · rw [genericStep_cont s line hop' hin hz]
        simp only [BraceInv] at h ⊢
        simp [h]
    · have hin' : s.in_model = false := by simpa using hin
      rw [genericStep_out s line hop' hin']
      exact h

theorem braceInv_foldl {kw : Str} (lines : List Str) :
    BraceInv (lines.foldl (genericStep kw) initState) := by
  exact foldl_preserve (fun s b h => braceInv_step s b h) lines initState (by simp [BraceInv, initState])

/-- While a block is open, the scanner has a non-empty name and a
non-empty accumulator (matching Python truthiness of `current_model` and
`current_content`). -/
def GoodState (s : ScanState) : Prop :=
  s.in_model = true →
    ∃ m, s.current_model = some m ∧ m ≠ [] ∧ s.current_content ≠ []

theorem goodState_step {w : Str} (hw : ∀ c ∈ w, isPySpace c = false)
    (hne : w ≠ []) (s : ScanState) (line : Str) (h : GoodState s) :
    GoodState (genericStep (w ++ [' ']) s line) := by
  by_cases hop : listStartsWith (pyStrip line) (w ++ [' ']) = true
  · rw [genericStep_opening s line hop]
    intro _
    exact ⟨_, rfl, name_token_ne_nil hw hne hop, by simp⟩
  · have hop' : listStartsWith (pyStrip line) (w ++ [' ']) = false := by
      simpa using hop
    by_cases hin : s.in_model = true
    · by_cases hz : s.brace_count + balInt line = 0
      · rw [genericStep_close s line hop' hin hz]
        intro h2
        simp at h2
      · rw [genericStep_cont s line hop' hin hz]
        intro _
        rcases h hin with ⟨m, hm, hm2, _⟩
        exact ⟨m, hm, hm2, by simp⟩
    · have hin' : s.in_model = false := by simpa using hin
      rw [genericStep_out s line hop' hin']
      exact h

theorem goodState_foldl {w : Str} (hw : ∀ c ∈ w, isPySpace c = false)
    (hne : w ≠ []) (lines : List Str) :
    GoodState (lines.foldl (genericStep (w ++ [' '])) initState) := by
  refine foldl_preserve (fun s b hs => goodState_step hw hne s b hs) lines initState ?_
  intro h
  simp [initState] at h

theorem finalFlush_keys_nodup {s : ScanState}
    (h : (dictKeys s.models).Nodup) : (dictKeys (finalFlush s)).Nodup := by
  unfold finalFlush
  cases s.current_model with
  | none => exact h
  | some m =>
    dsimp only
    by_cases hc : m ≠ [] ∧ s.current_content ≠ []
    · rw [if_pos hc]
      exact dictKeys_nodup_dictSet _ _ h
    · rw [if_neg hc]
      exact h

theorem scanKeysNodup_step {kw : Str} (s : ScanState) (line : Str)
    (h : (dictKeys s.models).Nodup) :
    (dictKeys (genericStep kw s line).models).Nodup := by
  by_cases hop : listStartsWith (pyStrip line) kw = true
  · rw [genericStep_opening s line hop]
    exact finalFlush_keys_nodup h
  · have hop' : listStartsWith (pyStrip line) kw = false := by simpa using hop
    by_cases hin : s.in_model = true
    · by_cases hz : s.brace_count + balInt line = 0
      · rw [genericStep_close s line hop' hin hz]
        exact dictKeys_nodup_dictSet _ _ h
      · rw [genericStep_cont s line hop' hin hz]
        exact h
    · have hin' : s.in_model = false := by simpa using hin
      rw [genericStep_out s line hop' hin']
      exact h

theorem extractBlocks_keys_nodup (kw content : Str) :
    (dictKeys (extractBlocks kw content)).Nodup := by
  unfold extractBlocks
  refine finalFlush_keys_nodup ?_
  exact foldl_preserve (fun s b hs => scanKeysNodup_step s b hs) _ initState (by simp [initState, dictKeys])

/-! ### Lemmas about the merge loop -/

theorem dictHasKey_append {d : Dict} {k : Str} (e : Dict)
    (h : dictHasKey d k = true) : dictHasKey (d ++ e) k = true := by
  rcases Option.isSome_iff_exists.mp h with ⟨v, hv⟩
  unfold dictHasKey
  rw [dictGet_append_left e hv]
  rfl

theorem addNewBlocks_cons (kind : BKind) (acc : Dict × Report) (kv : Str × Str)
    (rest : Dict) :
    addNewBlocks kind acc (kv :: rest) =
      addNewBlocks kind
        (if dictHasKey acc.1 kv.1 then
          (acc.1, acc.2 ++ [(kind, kv.1, Outcome.skippedDuplicate)])
        else
          (acc.1 ++ [kv], acc.2 ++ [(kind, kv.1, Outcome.added)])) rest := by
  unfold addNewBlocks
  rw [List.foldl_cons]

theorem addNewBlocks_get_pres {kind : BKind} {k v : Str} :
    ∀ (items : Dict) (acc : Dict × Report), dictGet acc.1 k = some v →
      dictGet (addNewBlocks kind acc items).1 k = some v := by
  intro items
  induction items with
  | nil => intro acc h; exact h
  | cons kv rest ih =>
    intro acc h
    rw [addNewBlocks_cons]
    by_cases hk : dictHasKey acc.1 kv.1 = true
    · simp only [hk, if_pos]
      exact ih _ h
    · simp only [hk, if_neg, Bool.false_eq_true, if_false]
      exact ih _ (dictGet_append_left _ h)

theorem addNewBlocks_report_mono {kind : BKind} {e : Event} :
    ∀ (items : Dict) (acc : Dict × Report), e ∈ acc.2 →
      e ∈ (addNewBlocks kind acc items).2 := by
  intro items
  induction items with
  | nil => intro acc h; exact h
  | cons kv rest ih =>
    intro acc h
    rw [addNewBlocks_cons]
    by_cases hk : dictHasKey acc.1 kv.1 = true
    · simp only [hk, if_pos]
      exact ih _ (List.mem_append_left _ h)
    · simp only [hk, if_neg, Bool.false_eq_true, if_false]
      exact ih _ (List.mem_append_left _ h)

theorem addNewBlocks_skip_recorded {kind : BKind} {key v : Str} :
    ∀ (items : Dict) (acc : Dict × Report), dictHasKey acc.1 key = true →
      (key, v) ∈ items →
      (kind, key, Outcome.skippedDuplicate) ∈ (addNewBlocks kind acc items).2 := by
  intro items
  induction items with
  | nil => intro acc _ hm; simp at hm
  | cons kv rest ih =>
    intro acc hk hm
    rw [addNewBlocks_cons]
    rcases List.mem_cons.mp hm with he | hm'
    · have hkv : kv.1 = key := by rw [← he]
      rw [hkv, hk]
      simp only [if_pos]
      exact addNewBlocks_report_mono rest _ (by simp)
    · by_cases hk2 : dictHasKey acc.1 kv.1 = true
      · simp only [hk2, if_pos]
        exact ih _ hk hm'
      · simp only [hk2, if_neg, Bool.false_eq_true, if_false]
        exact ih _ (dictHasKey_append _ hk) hm'

theorem addNewBlocks_keys_nodup {kind : BKind} :
    ∀ (items : Dict) (acc : Dict × Report), (dictKeys acc.1).Nodup →
      (dictKeys (addNewBlocks kind acc items).1).Nodup := by
  intro items
  induction items with
  | nil => intro acc h; exact h
  | cons kv rest ih =>
    intro acc h
    rw [addNewBlocks_cons]
    by_cases hk : dictHasKey acc.1 kv.1 = true
    · simp only [hk, if_pos]
      exact ih _ h
    · simp only [hk, if_neg, Bool.false_eq_true, if_false]
      refine ih _ ?_
      have hnk : kv.1 ∉ dictKeys acc.1 := by
        intro hmem
        rw [← dictGet_isSome_iff] at hmem
        exact hk hmem
      simp only [dictKeys, List.map_append, List.map_cons, List.map_nil]
      rw [List.nodup_append]
      refine ⟨h, List.nodup_singleton _, ?_⟩
      intro a ha hb
      rw [List.mem_singleton] at hb
      subst hb
      exact hnk ha

theorem mergeStep_models (acc : Dict × Dict × Report) (c : Str) :
    (mergeStep acc c).1 =
      (addNewBlocks BKind.model (acc.1, acc.2.2) (extract_models c)).1 := rfl

theorem mergeStep_enums (acc : Dict × Dict × Report) (c : Str) :
    (mergeStep acc c).2.1 =
      (addNewBlocks BKind.enum
        (acc.2.1, (addNewBlocks BKind.model (acc.1, acc.2.2) (extract_models c)).2)
        (extract_enums c)).1 := rfl

theorem mergeStep_report (acc : Dict × Dict × Report) (c : Str) :
    (mergeStep acc c).2.2 =
      (addNewBlocks BKind.enum
        (acc.2.1, (addNewBlocks BKind.model (acc.1, acc.2.2) (extract_models c)).2)
        (extract_enums c)).2 := rfl

theorem mergeState_models_get {primary : Str} {k v : Str}
    (secondaries : List Str)
    (h : dictGet (extract_models primary) k = some v) :
    dictGet (mergeState primary secondaries).1 k = some v := by
  unfold mergeState
  refine @foldl_preserve (Dict × Dict × Report) Str
    (fun acc => dictGet acc.1 k = some v) mergeStep ?_ _ _ h
  intro s b hs
  rw [mergeStep_models]
  exact addNewBlocks_get_pres _ _ hs

theorem mergeState_report_mono {e : Event} (secondaries : List Str)
    (acc : Dict × Dict × Report) (h : e ∈ acc.2.2) :
    e ∈ (secondaries.foldl mergeStep acc).2.2 := by
  refine @foldl_preserve (Dict × Dict × Report) Str
    (fun a => e ∈ a.2.2) mergeStep ?_ _ _ h
  intro s b hs
  rw [mergeStep_report]
  exact addNewBlocks_report_mono _ _ (addNewBlocks_report_mono _ _ hs)

theorem mergeState_skip_event {sec k v x : Str} :
    ∀ (secondaries : List Str) (acc : Dict × Dict × Report),
      dictGet acc.1 k = some x → sec ∈ secondaries →
      (k, v) ∈ extract_models sec →
      (BKind.model, k, Outcome.skippedDuplicate) ∈
        (secondaries.foldl mergeStep acc).2.2 := by
  intro secondaries
  induction secondaries with
  | nil => intro acc _ hs _; simp at hs
  | cons c cs ih =>
    intro acc hget hs hm
    rw [List.foldl_cons]
    rcases List.mem_cons.mp hs with rfl | hs'
    · refine mergeState_report_mono cs _ ?_
      rw [mergeStep_report]
      refine addNewBlocks_report_mono _ _ ?_
      refine addNewBlocks_skip_recorded _ _ ?_ hm
      unfold dictHasKey
      rw [hget]
      rfl
    · refine ih _ ?_ hs' hm
      rw [mergeStep_models]
      exact addNewBlocks_get_pres _ _ hget

/-! ### Containment of a rendered block in the output text -/

/-- The string `x` occurs contiguously inside `m` (substring containment). -/
def containsSeg (x m : Str) : Prop := ∃ a b, m = a ++ x ++ b

theorem containsSeg_of_mem {x : Str} {xs : List Str} (h : x ∈ xs) :
    containsSeg x (joinNL xs) := by
  induction xs with
  | nil => simp at h
  | cons y rest ih =>
    rcases List.mem_cons.mp h with rfl | h'
    · exact ⟨[], joinTail rest, by simp [joinNL]⟩
    · cases rest with
      | nil => simp at h'
      | cons r rs =>
        rcases ih h' with ⟨a, b, hab⟩
        have h1 : joinNL (y :: r :: rs) = y ++ '\n' :: joinNL (r :: rs) := rfl
        rw [h1, hab]
        exact ⟨y ++ '\n' :: a, b, by simp⟩

theorem renderSection_mem_value {d : Dict} {k v : Str} (t : Str)
    (h : dictGet d k = some v) : v ∈ renderSection t d := by
  have hk : k ∈ dictKeys d := (dictGet_isSome_iff d k).mp (by simp [h])
  have hk2 : k ∈ insSort (dictKeys d) := ((insSort_perm _).mem_iff).mpr hk
  unfold renderSection
  refine List.mem_cons_of_mem _ (List.mem_cons_of_mem _ (List.mem_cons_of_mem _ ?_))
  refine List.mem_flatMap.mpr ⟨k, hk2, ?_⟩
  simp [h]

theorem merge_schemas_fst (primary : Str) (secondaries : List Str) :
    (merge_schemas primary secondaries).1 =
      joinNL (joinNL (headerLines primary) ::
        (renderSection enumsTitle (mergeState primary secondaries).2.1 ++
          renderSection modelsTitle (mergeState primary secondaries).1)) := rfl

theorem merged_contains_model {primary : Str} {secondaries : List Str}
    {k v : Str} (h : dictGet (mergeState primary secondaries).1 k = some v) :
    containsSeg v (merge_schemas primary secondaries).1 := by
  have hmem : v ∈ renderSection modelsTitle (mergeState primary secondaries).1 :=
    renderSection_mem_value _ h
  rw [merge_schemas_fst]
  refine containsSeg_of_mem ?_
  refine List.mem_cons_of_mem _ ?_
  exact List.mem_append_right _ hmem

/-! ### Example documents used by witnesses and counterexamples -/

/-- A primary document defining model `A` with one body. -/
def exDocPrimary : Str := ("model A \x7b\n one Int\n\x7d").toList

/-- A secondary document defining model `A` with a different body. -/
def exDocSecondary : Str := ("model A \x7b\n two Int\n\x7d").toList

/-- A document defining model `A` twice with different bodies. -/
def exDocDup : Str := ("model A \x7b\n\x7d\nmodel A \x7b\nx\n\x7d").toList

/-- A document whose single model block never closes. -/
def exDocUnterm : Str := ("model A \x7b").toList

theorem merge_schemas_snd (primary : Str) (secondaries : List Str) :
    (merge_schemas primary secondaries).2 =
      (mergeState primary secondaries).2.2 := rfl

/-- Claim C1: if the primary's scanner maps `A` to `X` and some secondary's
scanner maps `A` to `Y` with `X ≠ Y`, then after the merge the model
registry still maps `A` to `X` (not `Y`), the report contains a
skipped-duplicate event for model `A`, and `X` occurs in the consolidated
output text. -/
theorem claim_C1 (primary : Str) (secondaries : List Str) (sec A X Y : Str)
    (hp : dictGet (extract_models primary) A = some X)
    (hs : sec ∈ secondaries)
    (hy : dictGet (extract_models sec) A = some Y)
    (hxy : X ≠ Y) :
    dictGet (mergeState primary secondaries).1 A = some X ∧
    dictGet (mergeState primary secondaries).1 A ≠ some Y ∧
    (BKind.model, A, Outcome.skippedDuplicate) ∈ (merge_schemas primary secondaries).2 ∧
    containsSeg X (merge_schemas primary secondaries).1 := by
  have h1 := mergeState_models_get secondaries hp
  have hymem : (A, Y) ∈ extract_models sec := dictGet_mem hy
  have h3 : (BKind.model, A, Outcome.skippedDuplicate) ∈
      (secondaries.foldl mergeStep
        (extract_models primary, extract_enums primary, [])).2.2 :=
    @mergeState_skip_event sec A Y X secondaries _ hp hs hymem
  refine ⟨h1, ?_, ?_, merged_contains_model h1⟩
  · intro he
    rw [h1] at he
    exact hxy (Option.some.inj he)
  · rw [merge_schemas_snd]
    exact h3

theorem claim_C1_witness :
    dictGet (extract_models exDocPrimary) ['A'] = some exDocPrimary ∧
    exDocSecondary ∈ [exDocSecondary] ∧
    dictGet (extract_models exDocSecondary) ['A'] = some exDocSecondary ∧
    exDocPrimary ≠ exDocSecondary ∧
    (dictGet (mergeState exDocPrimary [exDocSecondary]).1 ['A'] = some exDocPrimary ∧
     dictGet (mergeState exDocPrimary [exDocSecondary]).1 ['A'] ≠ some exDocSecondary ∧
     (BKind.model, ['A'], Outcome.skippedDuplicate) ∈
       (merge_schemas exDocPrimary [exDocSecondary]).2 ∧
     containsSeg exDocPrimary (merge_schemas exDocPrimary [exDocSecondary]).1) :=
  ⟨by decide, by decide, by decide, by decide,
    claim_C1 exDocPrimary [exDocSecondary] exDocSecondary ['A'] exDocPrimary
      exDocSecondary (by decide) (by decide) (by decide) (by decide)⟩

theorem mergeState_keys_nodup (primary : Str) (secondaries : List Str) :
    (dictKeys (mergeState primary secondaries).1).Nodup ∧
    (dictKeys (mergeState primary secondaries).2.1).Nodup := by
  unfold mergeState
  refine @foldl_preserve (Dict × Dict × Report) Str
    (fun acc => (dictKeys acc.1).Nodup ∧ (dictKeys acc.2.1).Nodup)
    mergeStep ?_ _ _ ⟨?_, ?_⟩
  · intro s b hs
    constructor
    · rw [mergeStep_models]
      exact addNewBlocks_keys_nodup _ _ hs.1
    · rw [mergeStep_enums]
      exact addNewBlocks_keys_nodup _ _ hs.2
  · rw [extract_models_eq_generic]
    exact extractBlocks_keys_nodup _ _
  · rw [extract_enums_eq_generic]
    exact extractBlocks_keys_nodup _ _

/-- Claim C2: for every input, the name sequence in which the renderer
emits the blocks of each kind's section (ascending insertion sort of the
registry's keys) is strictly increasing in the case-sensitive
lexicographic order. -/
theorem claim_C2 (primary : Str) (secondaries : List Str) :
    (insSort (dictKeys (mergeState primary secondaries).1)).Pairwise
      (fun a b => strLt a b = true) ∧
    (insSort (dictKeys (mergeState primary secondaries).2.1)).Pairwise
      (fun a b => strLt a b = true) :=
  ⟨insSort_pairwise_lt (mergeState_keys_nodup primary secondaries).1,
   insSort_pairwise_lt (mergeState_keys_nodup primary secondaries).2⟩

/-- Claim C3 counterexample: within one document, a later block with the
same name overwrites the earlier one — the scanner keeps the second
body, not the first. -/
theorem claim_C3_counterexample :
    dictGet (extract_models exDocDup) ['A'] =
      some (("model A \x7b\nx\n\x7d").toList) ∧
    (("model A \x7b\nx\n\x7d").toList : Str) ≠ ("model A \x7b\n\x7d").toList := by
  constructor
  · decide
  · decide

/-- Claim C3 (amended): inserting a block into the cross-document merge
registry under a name that is already present leaves the existing entry
untouched and records a skipped-duplicate event; but within one document
the scanner's dict assignment replaces the earlier entry's content. -/
theorem claim_C3_amended :
    (∀ (d : Dict) (r : Report) (kind : BKind) (k v v' : Str),
        dictGet d k = some v' →
        addNewBlocks kind (d, r) [(k, v)] =
          (d, r ++ [(kind, k, Outcome.skippedDuplicate)])) ∧
    (∀ (d : Dict) (k v : Str), dictGet (dictSet d k v) k = some v) := by
  constructor
  · intro d r kind k v v' h
    rw [addNewBlocks_cons]
    have hk : dictHasKey (d, r).1 k = true := by
      unfold dictHasKey
      rw [h]
      rfl
    rw [if_pos hk]
    rfl
  · intro d k v
    exact dictGet_dictSet_self d k v

theorem claim_C3_witness :
    dictGet [(['A'], ['x'])] ['A'] = some ['x'] ∧
    addNewBlocks BKind.model ([(['A'], ['x'])], []) [(['A'], ['y'])] =
      ([(['A'], ['x'])], [] ++ [(BKind.model, ['A'], Outcome.skippedDuplicate)]) :=
  ⟨by decide,
    claim_C3_amended.1 [(['A'], ['x'])] [] BKind.model ['A'] ['y'] ['x'] (by decide)⟩

/-- Claim C6: if the document ends while a block is still open, the
scanner still emits the accumulated partial block — the final dict maps
the open block's name to the joined accumulated lines. -/
theorem claim_C6 (content : Str)
    (hin : ((splitNL content).foldl modelStep initState).in_model = true) :
    ∃ m, ((splitNL content).foldl modelStep initState).current_model = some m ∧
      dictGet (extract_models content) m =
        some (joinNL ((splitNL content).foldl modelStep initState).current_content) := by
  have hgood0 : GoodState
      ((splitNL content).foldl (genericStep (['m', 'o', 'd', 'e', 'l'] ++ [' '])) initState) :=
    @goodState_foldl ['m', 'o', 'd', 'e', 'l'] (by decide) (by decide) _
  have hkw : (['m', 'o', 'd', 'e', 'l'] : Str) ++ [' '] = modelKW := rfl
  rw [hkw, ← modelStep_eq_generic] at hgood0
  rcases hgood0 hin with ⟨m, hm, hmne, hcne⟩
  refine ⟨m, hm, ?_⟩
  unfold extract_models finalFlush
  rw [hm]
  dsimp only
  rw [if_pos ⟨hmne, hcne⟩]
  exact dictGet_dictSet_self _ _ _

theorem claim_C6_witness :
    ((splitNL exDocUnterm).foldl modelStep initState).in_model = true ∧
    (∃ m, ((splitNL exDocUnterm).foldl modelStep initState).current_model = some m ∧
      dictGet (extract_models exDocUnterm) m =
        some (joinNL ((splitNL exDocUnterm).foldl modelStep initState).current_content)) :=
  ⟨by decide, claim_C6 exDocUnterm (by decide)⟩

/-- Claim C8 counterexample: a document whose only keyword line is
`model` with no identifier scans to completion with no error and no
block — there is no MalformedBlockHeader failure in the code. -/
theorem claim_C8_counterexample :
    extract_models (("model\n\x7b\n\x7d").toList) = [] := by decide

/-- Claim C8 (amended): an opening line recognised by the scanner always
carries a second whitespace-separated token, so the name access
`split()[1]` is never out of range; and a line consisting of the keyword
alone is not recognised as an opening line at all — outside a block it is
simply ignored, and no error of any kind is raised. -/
theorem claim_C8_amended :
    (∀ line : Str, listStartsWith (pyStrip line) modelKW = true →
        2 ≤ (pySplit (pyStrip line)).length) ∧
    (∀ (s : ScanState) (line : Str), pyStrip line = ['m', 'o', 'd', 'e', 'l'] →
        s.in_model = false → modelStep s line = s) := by
  constructor
  · intro line h
    exact @opening_two_tokens_gen ['m', 'o', 'd', 'e', 'l'] line
      (by decide) (by decide) h
  · intro s line hline hin
    rw [modelStep_eq_generic]
    refine genericStep_out s line ?_ hin
    rw [hline]
    decide

theorem claim_C8_witness :
    listStartsWith (pyStrip (("  model User \x7b").toList)) modelKW = true ∧
    2 ≤ (pySplit (pyStrip (("  model User \x7b").toList))).length :=
  ⟨by decide, claim_C8_amended.1 (("  model User \x7b").toList) (by decide)⟩

/-- Claim C9: a block-opening line arriving while a block is still open
flushes the accumulated lines as the open block's text (premature close),
and starts accumulating the new block at that very line; and while a
block stays open every non-opening line is appended to the accumulator,
so no line between the two openings is lost. -/
theorem claim_C9 :
    (∀ (pfx : List Str) (line m : Str),
        (pfx.foldl modelStep initState).current_model = some m → m ≠ [] →
        (pfx.foldl modelStep initState).current_content ≠ [] →
        listStartsWith (pyStrip line) modelKW = true →
        ((pfx ++ [line]).foldl modelStep initState).models =
          dictSet (pfx.foldl modelStep initState).models m
            (joinNL (pfx.foldl modelStep initState).current_content) ∧
        ((pfx ++ [line]).foldl modelStep initState).current_model =
          some ((pySplit (pyStrip line)).getD 1 []) ∧
        ((pfx ++ [line]).foldl modelStep initState).current_content = [line] ∧
        ((pfx ++ [line]).foldl modelStep initState).in_model = true) ∧
    (∀ (s : ScanState) (line : Str),
        listStartsWith (pyStrip line) modelKW = false → s.in_model = true →
        s.brace_count + balInt line ≠ 0 →
        (modelStep s line).current_content = s.current_content ++ [line]) := by
  constructor
  · intro pfx line m hm hmne hcne hop
    rw [List.foldl_append, List.foldl_cons, List.foldl_nil]
    rw [modelStep_eq_generic, genericStep_opening _ _ hop]
    refine ⟨?_, rfl, rfl, rfl⟩
    unfold finalFlush
    rw [← modelStep_eq_generic, hm]
    dsimp only
    rw [if_pos ⟨hmne, hcne⟩]
  · intro s line hop hin hnz
    rw [modelStep_eq_generic, genericStep_cont s line hop hin hnz]

theorem claim_C9_witness :
    (([("model A \x7b").toList].foldl modelStep initState).current_model =
        some ['A'] ∧
      (['A'] : Str) ≠ [] ∧
      ([("model A \x7b").toList].foldl modelStep initState).current_content ≠ [] ∧
      listStartsWith (pyStrip (("model B \x7b").toList)) modelKW = true) ∧
    ((([("model A \x7b").toList] ++ [("model B \x7b").toList]).foldl modelStep
          initState).models =
        dictSet ([("model A \x7b").toList].foldl modelStep initState).models ['A']
          (joinNL ([("model A \x7b").toList].foldl modelStep initState).current_content) ∧
      (([("model A \x7b").toList] ++ [("model B \x7b").toList]).foldl modelStep
          initState).current_model =
        some ((pySplit (pyStrip (("model B \x7b").toList))).getD 1 []) ∧
      (([("model A \x7b").toList] ++ [("model B \x7b").toList]).foldl modelStep
          initState).current_content = [("model B \x7b").toList] ∧
      (([("model A \x7b").toList] ++ [("model B \x7b").toList]).foldl modelStep
          initState).in_model = true) :=
  ⟨⟨by decide, by decide, by decide, by decide⟩,
    claim_C9.1 [("model A \x7b").toList] (("model B \x7b").toList) ['A']
      (by decide) (by decide) (by decide) (by decide)⟩

/-- Claim C10: the enum scanner is the model scanner with its keyword
replaced — both are instances of the same keyword-generic algorithm, at
`'enum '` and `'model '` respectively, for every input document. -/
theorem claim_C10 (content : Str) :
    extract_enums content = extractBlocks enumKW content ∧
    extract_models content = extractBlocks modelKW content :=
  ⟨rfl, rfl⟩

/-- A document whose block's opening line already balances its braces;
the block swallows the following line. -/
def exDocBalancedOpen : Str := ("model A \x7b \x7d\nnext").toList

/-- Claim C5 counterexample: (i) an unterminated block is emitted with
unbalanced braces; (ii) a block may be emitted with negative running
balance after its first line; (iii) a block balanced on its opening line
has running balance zero before its final line. -/
theorem claim_C5_counterexample :
    (dictGet (extract_models exDocUnterm) ['A'] = some (("model A \x7b").toList) ∧
      countCh '\x7b' (("model A \x7b").toList) ≠
        countCh '\x7d' (("model A \x7b").toList)) ∧
    (dictGet (extract_models (("model A \x7d\n\x7b").toList)) ['A'] =
        some (("model A \x7d\n\x7b").toList) ∧
      balInt (("model A \x7d").toList) < 0) ∧
    (dictGet (extract_models (("model A \x7b \x7d\n").toList)) ['A'] =
        some (("model A \x7b \x7d\n").toList) ∧
      balInt (("model A \x7b \x7d").toList) = 0 ∧
      (splitNL (("model A \x7b \x7d\n").toList)).length = 2) := by
  refine ⟨⟨by decide, by decide⟩, ⟨by decide, by decide⟩, by decide, by decide, by decide⟩

/-- Claim C5 (amended): every block emitted through the scanner's normal
depth-zero close (which only happens on a line after the opening line)
has equally many opening and closing braces in its raw text; the blocks
emitted by the end-of-document fallback or flushed by a new opening line
need not balance, and the running-balance side conditions do not hold in
general. -/
theorem claim_C5_amended (pfx : List Str) (line m : Str)
    (hop : listStartsWith (pyStrip line) modelKW = false)
    (hin : (pfx.foldl modelStep initState).in_model = true)
    (hm : (pfx.foldl modelStep initState).current_model = some m)
    (hz : (pfx.foldl modelStep initState).brace_count + balInt line = 0) :
    countCh '\x7b' (joinNL ((pfx.foldl modelStep initState).current_content ++ [line])) =
      countCh '\x7d' (joinNL ((pfx.foldl modelStep initState).current_content ++ [line])) ∧
    ((pfx ++ [line]).foldl modelStep initState).models =
      dictSet (pfx.foldl modelStep initState).models m
        (joinNL ((pfx.foldl modelStep initState).current_content ++ [line])) := by
  have hinv : BraceInv (pfx.foldl modelStep initState) := by
    have h0 := @braceInv_foldl modelKW pfx
    rwa [← modelStep_eq_generic] at h0
  constructor
  · have hb : balInt
        (joinNL ((pfx.foldl modelStep initState).current_content ++ [line])) = 0 := by
      rw [balInt_joinNL, List.map_append, List.sum_append]
      simp only [List.map_cons, List.map_nil, List.sum_cons, List.sum_nil]
      unfold BraceInv at hinv
      omega
    unfold balInt at hb
    omega
  · have hm' : (pfx.foldl (genericStep modelKW) initState).current_model = some m := hm
    rw [List.foldl_append, List.foldl_cons, List.foldl_nil, modelStep_eq_generic]
    rw [genericStep_close (pfx.foldl (genericStep modelKW) initState) line hop hin hz]
    dsimp only
    rw [hm']
    rfl

theorem claim_C5_witness :
    (listStartsWith (pyStrip (("\x7d").toList)) modelKW = false ∧
      ([("model A \x7b").toList].foldl modelStep initState).in_model = true ∧
      ([("model A \x7b").toList].foldl modelStep initState).current_model = some ['A'] ∧
      ([("model A \x7b").toList].foldl modelStep initState).brace_count +
        balInt (("\x7d").toList) = 0) ∧
    (countCh '\x7b' (joinNL (([("model A \x7b").toList].foldl modelStep
          initState).current_content ++ [("\x7d").toList])) =
      countCh '\x7d' (joinNL (([("model A \x7b").toList].foldl modelStep
          initState).current_content ++ [("\x7d").toList])) ∧
    (([("model A \x7b").toList] ++ [("\x7d").toList]).foldl modelStep
        initState).models =
      dictSet ([("model A \x7b").toList].foldl modelStep initState).models ['A']
        (joinNL (([("model A \x7b").toList].foldl modelStep
          initState).current_content ++ [("\x7d").toList]))) :=
  ⟨⟨by decide, by decide, by decide, by decide⟩,
    claim_C5_amended [("model A \x7b").toList] (("\x7d").toList) ['A']
      (by decide) (by decide) (by decide) (by decide)⟩

/-- Claim C7 counterexample: a block whose opening line alone balances
its braces is NOT emitted as that one line — the close test is applied
only to subsequent lines, so the block swallows the following line. -/
theorem claim_C7_counterexample :
    dictGet (extract_models exDocBalancedOpen) ['A'] =
      some (("model A \x7b \x7d\nnext").toList) ∧
    (("model A \x7b \x7d\nnext").toList : Str) ≠ ("model A \x7b \x7d").toList := by
  exact ⟨by decide, by decide⟩

/-- Claim C7 (amended): an opening line always leaves the block open with
the accumulator holding exactly that line, even if the line balances its
own braces; a block is closed exactly on the first later line whose
processing returns the running count to zero, with raw text equal to the
accumulated lines through that closing line; and a later line that does
not return the count to zero keeps the block open, appending the line. -/
theorem claim_C7_amended :
    (∀ (s : ScanState) (line : Str),
        listStartsWith (pyStrip line) modelKW = true →
        (modelStep s line).in_model = true ∧
        (modelStep s line).current_content = [line]) ∧
    (∀ (pfx : List Str) (line m : Str),
        listStartsWith (pyStrip line) modelKW = false →
        (pfx.foldl modelStep initState).in_model = true →
        (pfx.foldl modelStep initState).current_model = some m →
        (pfx.foldl modelStep initState).brace_count + balInt line = 0 →
        (pfx ++ [line]).foldl modelStep initState =
          ⟨dictSet (pfx.foldl modelStep initState).models m
              (joinNL ((pfx.foldl modelStep initState).current_content ++ [line])),
            none, [], false, 0⟩) ∧
    (∀ (s : ScanState) (line : Str),
        listStartsWith (pyStrip line) modelKW = false → s.in_model = true →
        s.brace_count + balInt line ≠ 0 →
        (modelStep s line).in_model = true ∧
        (modelStep s line).current_content = s.current_content ++ [line] ∧
        (modelStep s line).models = s.models) := by
  refine ⟨?_, ?_, ?_⟩
  · intro s line hop
    rw [modelStep_eq_generic, genericStep_opening _ _ hop]
    exact ⟨rfl, rfl⟩
  · intro pfx line m hop hin hm hz
    have hm' : (pfx.foldl (genericStep modelKW) initState).current_model = some m := hm
    rw [List.foldl_append, List.foldl_cons, List.foldl_nil, modelStep_eq_generic]
    rw [genericStep_close (pfx.foldl (genericStep modelKW) initState) line hop hin hz]
    rw [hm']
    rfl
  · intro s line hop hin hnz
    rw [modelStep_eq_generic, genericStep_cont s line hop hin hnz]
    refine ⟨hin, rfl, rfl⟩

theorem claim_C7_witness :
    listStartsWith (pyStrip (("model A \x7b \x7d").toList)) modelKW = true ∧
    ((modelStep initState (("model A \x7b \x7d").toList)).in_model = true ∧
      (modelStep initState (("model A \x7b \x7d").toList)).current_content =
        [("model A \x7b \x7d").toList]) :=
  ⟨by decide, claim_C7_amended.1 initState (("model A \x7b \x7d").toList) (by decide)⟩

/-- The primary document used to demonstrate the failure of idempotence. -/
def exDocClosed : Str := ("model A \x7b\n\x7d").toList

/-- Claim C4 counterexample: running the merge on its own output (as sole
primary, no secondaries) does not reproduce the output byte for byte. -/
theorem claim_C4_counterexample :
    (merge_schemas (merge_schemas exDocClosed []).1 []).1 ≠
      (merge_schemas exDocClosed []).1 := by decide

/-- Claim C4 (amended): the merge is not idempotent. Every output starts
with the primary's pre-block prefix followed by the section banners; on a
re-merge the first run's banners are absorbed into the new header, and
fresh banners are appended after it, so the output grows instead of being
byte-identical. Concretely, re-merging the output for the primary
`model A \x7b\n\x7d` yields that output with its own (banner-containing,
non-empty) header text prepended. -/
theorem claim_C4_amended :
    (∀ (primary : Str) (secondaries : List Str),
        (merge_schemas primary secondaries).1 =
          joinNL (headerLines primary) ++ '\n' ::
            joinNL (renderSection enumsTitle (mergeState primary secondaries).2.1 ++
              renderSection modelsTitle (mergeState primary secondaries).1)) ∧
    (merge_schemas (merge_schemas exDocClosed []).1 []).1 =
      joinNL (headerLines (merge_schemas exDocClosed []).1) ++
        (merge_schemas exDocClosed []).1 ∧
    joinNL (headerLines (merge_schemas exDocClosed []).1) ≠ [] ∧
    (merge_schemas (merge_schemas exDocClosed []).1 []).1 ≠
      (merge_schemas exDocClosed []).1 := by
  refine ⟨fun primary secondaries => rfl, by decide, by decide, by decide⟩
